import Mathlib

/-!
Verification of the cargo-manifest plugin core (`load.py`).

This file shallowly embeds the pure logic of the plugin: the commodity-name
canonicaliser (`canonicalise`), the mission-ledger update rules
(`add_mission`, the CargoDepot branch of `journal_entry`), and the
manifest reconciliation algorithm (`populate_manifest`).  Python dicts are
modelled as association lists with unique keys in insertion order; machine
integers are `Int`; optional dict fields are `Option`.
-/

namespace EDMCCargo

/-- ASCII lowercasing of one character, as `str.lower` acts on the ASCII
journal identifier strings this plugin consumes. -/
def pyLowerChar (c : Char) : Char :=
  if 65 ≤ c.toNat ∧ c.toNat ≤ 90 then Char.ofNat (c.toNat + 32) else c

/-- `str.lower` on a whole string (ASCII repertoire). -/
def pyLower (s : String) : String := String.mk (s.data.map pyLowerChar)

/-- Python `str.startswith`, character-wise. -/
def pyStartsWith (s pre : String) : Bool := pre.data.isPrefixOf s.data

/-- Python string comparison: strict lexicographic order on code points. -/
def pyCharListLt : List Char → List Char → Bool
  | _, [] => false
  | [], _ :: _ => true
  | a :: as, b :: bs =>
    if a.toNat < b.toNat then true
    else if b.toNat < a.toNat then false
    else pyCharListLt as bs

/-- Python `a <= b` on strings: not `b < a`. -/
def pyStrLe (a b : String) : Bool := ! pyCharListLt b.data a.data

/-- ASCII uppercasing of one character. -/
def pyUpperChar (c : Char) : Char :=
  if 97 ≤ c.toNat ∧ c.toNat ≤ 122 then Char.ofNat (c.toNat - 32) else c

/-- Helper for `pyTitle`: the Bool records whether the previous character was
alphabetic (cased). -/
def pyTitleAux : Bool → List Char → List Char
  | _, [] => []
  | prev, c :: cs =>
    if c.isAlpha then
      (if prev then pyLowerChar c else pyUpperChar c) :: pyTitleAux true cs
    else
      c :: pyTitleAux false cs

/-- Python `str.title()` on the ASCII repertoire: the first character of each
run of alphabetic characters is uppercased, the rest lowercased. -/
def pyTitle (s : String) : String := String.mk (pyTitleAux false s.data)

/-- The literal part of the localisation-wrapper pattern `\$(.+)_name;`. -/
def nameMarker : List Char := [ '_', 'n', 'a', 'm', 'e', ';' ]

/-- Greedy regex search for `CANONICALISE_RE` after the leading `$`:
returns the longest nonempty newline-free segment that is followed by the
literal marker `_name;` (the semantics of greedy `(.+)` in `re.match`). -/
def greedySplit (acc : List Char) : List Char → Option (List Char)
  | [] => none
  | c :: rest =>
    match (if c = '\n' then none else greedySplit (acc ++ [c]) rest) with
    | some t => some t
    | none =>
      if nameMarker.isPrefixOf (c :: rest) ∧ acc ≠ [] then some acc else none

/-- `CANONICALISE_RE.match`: anchored at the start, the input must begin with
`$`; the returned value is group 1 of the match, when any. -/
def matchCanon (s : String) : Option String :=
  match s.data with
  | '$' :: r => (greedySplit [] r).map String.mk
  | _ => none

/-- `canonicalise` from `load.py`: lowercase, then strip the `$..._name;`
localisation wrapper when the pattern matches. -/
def canonicalise (item : String) : String :=
  let l := pyLower item
  match matchCanon l with
  | some t => t
  | none => l

/-! ### Association-list model of Python dicts -/

/-- Dict lookup (`d[k]` / `k in d`). -/
def lookupA {κ α : Type} [DecidableEq κ] (k : κ) : List (κ × α) → Option α
  | [] => none
  | (k', v) :: rest => if k' = k then some v else lookupA k rest

/-- Update the value at an existing key in place (position preserved). -/
def updateA {κ α : Type} [DecidableEq κ] (k : κ) (f : α → α) :
    List (κ × α) → List (κ × α)
  | [] => []
  | (k', v) :: rest =>
    if k' = k then (k', f v) :: rest else (k', v) :: updateA k f rest

/-- Dict assignment `d[k] = v`: replaces the value in place when the key is
present, otherwise appends (Python dict insertion-order semantics). -/
def setA {κ α : Type} [DecidableEq κ] (k : κ) (v : α) (l : List (κ × α)) :
    List (κ × α) :=
  if (lookupA k l).isSome then updateA k (fun _ => v) l else l ++ [(k, v)]

/-! ### Data model -/

/-- One raw inventory line of a Cargo event (`CargoItem` TypedDict plus the
optional `MissionID` tag actually read by the code). -/
structure CargoItem where
  Name : String
  Name_Localised : Option String
  Count : Int
  Stolen : Int
  MissionID : Option Nat
deriving Repr, DecidableEq

/-- A mission-ledger record (`Mission` TypedDict). -/
structure Mission where
  name : String
  name_localised : String
  total : Int
  remaining : Int
  allocated : Bool
  stolen : Bool
deriving Repr, DecidableEq

/-- Per-mission allocation sub-record of a manifest entry. -/
structure MRec where
  count : Int
  stolen : Int
  count_need : Option Int
  stolen_need : Option Int
deriving Repr, DecidableEq

/-- A manifest entry for one commodity key: display name, free count, free
stolen count, per-mission allocation records in insertion order. -/
structure Entry where
  name : String
  count : Int
  stolen : Int
  missions : List (Nat × MRec)
deriving Repr, DecidableEq

/-- The flair appended to a rare commodity's display name. -/
def rareFlair : String := " ⚜️"

/-- Display-name fallback chain for a freshly seen commodity key
(`load.py` lines 307-321): item-level localised name, else the localised
name of the first ledger mission with the same key, else the title-cased
raw name; rare commodities get the flair suffix. -/
def resolveDisplay (item : CargoItem) (key : String)
    (missions : List (Nat × Mission)) (rare : List String) : String :=
  let base :=
    match item.Name_Localised with
    | some d => d
    | none =>
      match missions.find? (fun p => p.2.name = key) with
      | some p => p.2.name_localised
      | none => pyTitle item.Name
  if key ∈ rare then base ++ rareFlair else base

/-- Collation of one inventory line into the working manifest
(`load.py` lines 299-340). -/
def collateStep (missions : List (Nat × Mission)) (rare : List String)
    (manifest : List (String × Entry)) (item : CargoItem) :
    List (String × Entry) :=
  let key := canonicalise item.Name
  let m1 :=
    if (lookupA key manifest).isSome then
      updateA key (fun e =>
        { e with count := e.count + (item.Count - item.Stolen),
                 stolen := e.stolen + item.Stolen }) manifest
    else
      manifest ++ [(key,
        { name := resolveDisplay item key missions rare,
          count := item.Count - item.Stolen,
          stolen := item.Stolen,
          missions := [] })]
  match item.MissionID with
  | none => m1
  | some mid =>
    updateA key (fun e =>
      { e with
        missions := setA mid
          { count := item.Count - item.Stolen, stolen := item.Stolen,
            count_need := none, stolen_need := none } e.missions,
        count := e.count - (item.Count - item.Stolen),
        stolen := e.stolen - item.Stolen }) m1

/-- The collation loop over all inventory lines. -/
def collate (inventory : List CargoItem) (missions : List (Nat × Mission))
    (rare : List String) : List (String × Entry) :=
  inventory.foldl (collateStep missions rare) []

/-- Python truthiness of an optional integer need field. -/
def needTruthy : Option Int → Bool
  | none => false
  | some n => n ≠ 0

/-- Set the outstanding-need field of a sub-record on the side selected by
the mission's stolen flag (`load.py` lines 360-363). -/
def setNeed (mission : Mission) (r : MRec) : MRec :=
  if mission.stolen then { r with stolen_need := some mission.remaining }
  else { r with count_need := some mission.remaining }

/-- Greedy non-stolen allocation for one mission (`load.py` lines 365-371):
when the free pool is positive and the need field truthy, move
`min(free, need)` units from the pool and ASSIGN them into the
sub-record's allocated count. -/
def allocCountStep (mid : Nat) (e : Entry) : Entry :=
  match lookupA mid e.missions with
  | none => e
  | some r =>
    if e.count > 0 ∧ needTruthy r.count_need then
      { e with
        count := e.count - min e.count (r.count_need.getD 0),
        missions := updateA mid
          (fun r' => { r' with count := min e.count (r.count_need.getD 0) })
          e.missions }
    else e

/-- Greedy stolen allocation for one mission (`load.py` lines 372-378). -/
def allocStolenStep (mid : Nat) (e : Entry) : Entry :=
  match lookupA mid e.missions with
  | none => e
  | some r =>
    if e.stolen > 0 ∧ needTruthy r.stolen_need then
      { e with
        stolen := e.stolen - min e.stolen (r.stolen_need.getD 0),
        missions := updateA mid
          (fun r' => { r' with stolen := min e.stolen (r.stolen_need.getD 0) })
          e.missions }
    else e

/-- Attach one ledger mission to its commodity's entry: ensure the
sub-record exists, set the outstanding-need field, then greedily allocate
from the free pool, non-stolen side first (`load.py` lines 351-378). -/
def attachEntry (mid : Nat) (mission : Mission) (e : Entry) : Entry :=
  let ms0 :=
    if (lookupA mid e.missions).isSome then e.missions
    else e.missions ++ [(mid, ⟨0, 0, none, none⟩)]
  allocStolenStep mid (allocCountStep mid
    { e with missions := updateA mid (setNeed mission) ms0 })

/-- One iteration of the mission loop (`load.py` lines 343-378): ensure the
mission's commodity has a manifest entry (display name falling back to the
mission's own localised name), then attach the mission to it. -/
def attachStep (manifest : List (String × Entry)) (pm : Nat × Mission) :
    List (String × Entry) :=
  let m1 :=
    if (lookupA pm.2.name manifest).isSome then manifest
    else manifest ++ [(pm.2.name, ⟨pm.2.name_localised, 0, 0, []⟩)]
  updateA pm.2.name (attachEntry pm.1 pm.2) m1

/-- The mission loop over the whole ledger, in ledger insertion order. -/
def attach (manifest : List (String × Entry))
    (missions : List (Nat × Mission)) : List (String × Entry) :=
  missions.foldl attachStep manifest

/-- Python `sorted(..., key=lambda x: x["name"])`: a stable sort under
code-point lexicographic string comparison, modelled by insertion sort. -/
def sortEntries (l : List Entry) : List Entry :=
  l.insertionSort (fun a b => pyStrLe a.name b.name = true)

/-- The category glyph of a rendered row. -/
inductive Glyph
  | missionAlloc
  | missionStolen
  | free
  | freeStolen
deriving Repr, DecidableEq

/-- One rendered label row: count, glyph, display name, bracket suffix. -/
structure Row where
  count : Int
  glyph : Glyph
  name : String
  suffix : String
deriving Repr, DecidableEq

/-- The rows rendered for one manifest entry (`load.py` lines 408-437):
mission rows first (need suffix when the need field is set, `#?` when an
allocation exists without a need), then free and free-stolen rows. -/
def entryRows (e : Entry) : List Row :=
  (e.missions.foldl (fun acc pr =>
    let r := pr.2
    let acc1 :=
      match r.count_need with
      | some n => acc ++ [⟨r.count, Glyph.missionAlloc, e.name, toString n⟩]
      | none =>
        if r.count > 0 then acc ++ [⟨r.count, Glyph.missionAlloc, e.name, "#?"⟩]
        else acc
    match r.stolen_need with
    | some n =>
      acc1 ++ [⟨r.stolen, Glyph.missionStolen, e.name, "need " ++ toString n⟩]
    | none =>
      if r.stolen > 0 then acc1 ++ [⟨r.stolen, Glyph.missionStolen, e.name, "#?"⟩]
      else acc1) [])
  ++ (if e.count > 0 then [⟨e.count, Glyph.free, e.name, ""⟩] else [])
  ++ (if e.stolen > 0 then [⟨e.stolen, Glyph.freeStolen, e.name, ""⟩] else [])

/-- The result of `populate_manifest`: the sorted manifest entries, the
rendered rows, the raw total unit count, and the `row > 0` boolean. -/
structure ManifestResult where
  entries : List Entry
  rows : List Row
  total : Int
  has_rows : Bool
deriving Repr, DecidableEq

/-- The running raw total accumulated over all inventory lines. -/
def totalCount (inv : List CargoItem) : Int :=
  inv.foldl (fun a i => a + i.Count) 0

/-- The manifest reconciler (`populate_manifest`, `load.py` lines 284-439),
minus the tkinter label construction.  `cargo = none` models a falsy cargo
dict or one lacking the `Inventory` key. -/
def populate_manifest (cargo : Option (List CargoItem))
    (missions : List (Nat × Mission)) (rare : List String) : ManifestResult :=
  match cargo with
  | none => ⟨[], [], 0, false⟩
  | some inv =>
    let m := attach (collate inv missions rare) missions
    let entries := sortEntries (m.map Prod.snd)
    let rows := entries.foldl (fun acc e => acc ++ entryRows e) []
    ⟨entries, rows, totalCount inv, decide (0 < rows.length)⟩

/-! ### Mission ledger updates -/

/-- A MissionAccepted journal event, restricted to the fields the code
reads; optional fields model `in`-tests on the raw dict. -/
structure MissionEvent where
  Name : String
  MissionID : Nat
  Commodity : Option String
  Commodity_Localised : Option String
  Count : Option Int
deriving Repr, DecidableEq

/-- The ledger record `add_mission` inserts for an accepted event carrying
commodity `c` and count `n` (`load.py` lines 617-628): the allocated and
stolen flags come from the lowered type's `mission_delivery` and
`mission_rescue`/`mission_salvage` classification. -/
def acceptedRecord (ev : MissionEvent) (c : String) (n : Int) : Mission :=
  { name := canonicalise c,
    name_localised := ev.Commodity_Localised.getD c,
    total := n,
    remaining := n,
    allocated := pyStartsWith (pyLower ev.Name) "mission_delivery",
    stolen := pyStartsWith (pyLower ev.Name) "mission_rescue" ||
      pyStartsWith (pyLower ev.Name) "mission_salvage" }

/-- `add_mission` from `load.py`: returns the updated ledger and the
boolean result.  Missions with an on-foot or sightseeing type are rejected,
as is any event missing its `Commodity` field or its `Count` field. -/
def add_mission (ledger : List (Nat × Mission)) (ev : MissionEvent) :
    List (Nat × Mission) × Bool :=
  if pyStartsWith (pyLower ev.Name) "mission_onfoot_" ||
      pyStartsWith (pyLower ev.Name) "mission_sightseeing_" then
    (ledger, false)
  else
    match ev.Commodity, ev.Count with
    | some commodity, some count =>
      (setA ev.MissionID (acceptedRecord ev commodity count) ledger, true)
    | _, _ => (ledger, false)

/-- A CargoDepot journal event, restricted to the fields the code reads. -/
structure DepotEvent where
  MissionID : Nat
  CargoType : String
  CargoType_Localised : Option String
  TotalItemsToDeliver : Int
  ItemsDelivered : Int
  ItemsCollected : Int
deriving Repr, DecidableEq

/-- The CargoDepot branch of `journal_entry` (`load.py` lines 262-276). -/
def cargo_depot (ledger : List (Nat × Mission)) (ev : DepotEvent) :
    List (Nat × Mission) :=
  if (lookupA ev.MissionID ledger).isSome then
    updateA ev.MissionID
      (fun r =>
        { r with remaining := ev.TotalItemsToDeliver - ev.ItemsDelivered })
      ledger
  else
    setA ev.MissionID
      { name := canonicalise ev.CargoType,
        name_localised := ev.CargoType_Localised.getD ev.CargoType,
        total := ev.TotalItemsToDeliver,
        remaining := ev.TotalItemsToDeliver - ev.ItemsDelivered,
        allocated := decide (0 < ev.ItemsCollected),
        stolen := false } ledger

/-! ### Derived quantities and predicates used by the verification -/

/-- Sum of the raw `Count` fields over all inventory lines whose canonical
key is `k`. -/
def rawTotal (inv : List CargoItem) (k : String) : Int :=
  ((inv.filter (fun i => canonicalise i.Name = k)).map CargoItem.Count).sum

/-- Sum of allocated plus allocated-stolen over a list of per-mission
records. -/
def recSum (ms : List (Nat × MRec)) : Int :=
  (ms.map (fun p => p.2.count + p.2.stolen)).sum

/-- Free count plus free stolen count plus all per-mission allocations of
one entry. -/
def entrySum (e : Entry) : Int := e.count + e.stolen + recSum e.missions

/-- `entrySum` of the entry stored under key `k`, zero when absent. -/
def keySum (m : List (String × Entry)) (k : String) : Int :=
  ((lookupA k m).map entrySum).getD 0

/-- Every quantity of a per-mission record is non-negative. -/
def MRecNonneg (r : MRec) : Prop :=
  0 ≤ r.count ∧ 0 ≤ r.stolen ∧
    (∀ n, r.count_need = some n → 0 ≤ n) ∧
    (∀ n, r.stolen_need = some n → 0 ≤ n)

/-- Every quantity of a manifest entry is non-negative. -/
def EntryNonneg (e : Entry) : Prop :=
  0 ≤ e.count ∧ 0 ≤ e.stolen ∧ ∀ p ∈ e.missions, MRecNonneg p.2

/-- Modelled from the spec: case-insensitive lexicographic comparison of
display names, the order the spec asserts for the emitted entries. -/
def ciLe (a b : String) : Prop := pyStrLe (pyLower a) (pyLower b) = true

instance : DecidableRel ciLe := fun a b => by
  unfold ciLe
  infer_instance

/-- The rejection condition of `add_mission`: an on-foot or sightseeing
type prefix. -/
def rejectType (ev : MissionEvent) : Prop :=
  pyStartsWith (pyLower ev.Name) "mission_onfoot_" = true ∨
    pyStartsWith (pyLower ev.Name) "mission_sightseeing_" = true

instance (ev : MissionEvent) : Decidable (rejectType ev) := by
  unfold rejectType
  infer_instance

/-! ## Helper lemmas: characters and the canonicaliser -/

theorem toNat_ofNat_valid (n : Nat) (h : n.isValidChar) :
    (Char.ofNat n).toNat = n := by
  unfold Char.ofNat
  rw [dif_pos h]
  rfl

theorem pyLowerChar_idem (c : Char) :
    pyLowerChar (pyLowerChar c) = pyLowerChar c := by
  unfold pyLowerChar
  by_cases h : 65 ≤ c.toNat ∧ c.toNat ≤ 90
  · rw [if_pos h, if_neg]
    rw [toNat_ofNat_valid _ (Or.inl (by omega))]
    omega
  · rw [if_neg h, if_neg h]

theorem pyLower_idem (s : String) : pyLower (pyLower s) = pyLower s := by
  unfold pyLower
  show String.mk ((s.data.map pyLowerChar).map pyLowerChar) = _
  rw [List.map_map]
  exact congrArg String.mk
    (List.map_congr_left (fun c _ => pyLowerChar_idem c))

theorem mem_pyLower (s : String) (c : Char) (h : c ∈ (pyLower s).data) :
    pyLowerChar c = c := by
  unfold pyLower at h
  obtain ⟨a, -, rfl⟩ := List.mem_map.mp h
  exact pyLowerChar_idem a

theorem pyLower_fix (t : String) (h : ∀ c ∈ t.data, pyLowerChar c = c) :
    pyLower t = t := by
  unfold pyLower
  show String.mk (t.data.map pyLowerChar) = String.mk t.data
  exact congrArg String.mk ((List.map_congr_left h).trans (List.map_id _))

theorem greedySplit_subset :
    ∀ (rem acc t : List Char), greedySplit acc rem = some t →
      ∀ c ∈ t, c ∈ acc ∨ c ∈ rem := by
  intro rem
  induction rem with
  | nil => intro acc t h; simp [greedySplit] at h
  | cons x rest ih =>
    intro acc t h c hc
    rw [greedySplit] at h
    by_cases hx : x = '\n'
    · rw [if_pos hx] at h
      have h' : (if nameMarker.isPrefixOf (x :: rest) ∧ acc ≠ [] then
          some acc else none) = some t := h
      rcases Decidable.em (nameMarker.isPrefixOf (x :: rest) ∧ acc ≠ []) with hp | hp
      · rw [if_pos hp] at h'
        obtain rfl : acc = t := Option.some.inj h'
        exact Or.inl hc
      · rw [if_neg hp] at h'
        exact absurd h' (by simp)
    · rw [if_neg hx] at h
      cases hg : greedySplit (acc ++ [x]) rest with
      | some t' =>
        rw [hg] at h
        have ht : t' = t := Option.some.inj h
        rcases ih (acc ++ [x]) t' hg c (by rw [ht]; exact hc) with h' | h'
        · rcases List.mem_append.mp h' with h'' | h''
          · exact Or.inl h''
          · exact Or.inr (List.mem_cons.mpr (Or.inl (List.mem_singleton.mp h'')))
        · exact Or.inr (List.mem_cons.mpr (Or.inr h'))
      | none =>
        rw [hg] at h
        have h' : (if nameMarker.isPrefixOf (x :: rest) ∧ acc ≠ [] then
            some acc else none) = some t := h
        rcases Decidable.em (nameMarker.isPrefixOf (x :: rest) ∧ acc ≠ []) with hp | hp
        · rw [if_pos hp] at h'
          obtain rfl : acc = t := Option.some.inj h'
          exact Or.inl hc
        · rw [if_neg hp] at h'
          exact absurd h' (by simp)

theorem matchCanon_chars (s t : String) (h : matchCanon s = some t) :
    ∀ c ∈ t.data, c ∈ s.data := by
  unfold matchCanon at h
  split at h
  next r heq =>
    obtain ⟨t', ht', rfl⟩ := Option.map_eq_some'.mp h
    intro c hc
    rcases greedySplit_subset r [] t' ht' c hc with h' | h'
    · exact absurd h' (List.not_mem_nil c)
    · rw [heq]
      exact List.mem_cons.mpr (Or.inr h')
  next => exact absurd h (by simp)

theorem pyLower_canonicalise (s : String) :
    pyLower (canonicalise s) = canonicalise s := by
  unfold canonicalise
  cases h : matchCanon (pyLower s) with
  | none => simpa [h] using pyLower_idem s
  | some t =>
    simp only [h]
    exact pyLower_fix t fun c hc => mem_pyLower s c (matchCanon_chars _ _ h c hc)

/-! ## C5: idempotence of canonicalisation -/

/-- C5 counterexample: canonicalisation is not idempotent as claimed.  The
doubly wrapped identifier `$$x_name;_name;` canonicalises (greedily) to the
still-wrapped key `$x_name;`, which canonicalises further to `x`. -/
theorem C5_counterexample :
    canonicalise (canonicalise "$$x_name;_name;") ≠
      canonicalise "$$x_name;_name;" := by decide

/-- C5 (amended): `canonicalise` is idempotent on every input whose
canonical key does not itself match the `$..._name;` wrapper pattern;
in particular `canonicalise (canonicalise s) = canonicalise s` then. -/
theorem C5_canonicalise_idem (s : String)
    (h : matchCanon (canonicalise s) = none) :
    canonicalise (canonicalise s) = canonicalise s := by
  show (match matchCanon (pyLower (canonicalise s)) with
        | some t => t
        | none => pyLower (canonicalise s)) = canonicalise s
  rw [pyLower_canonicalise s, h]

/-- C5 witness: a concrete singly-wrapped identifier satisfying the
hypothesis of `C5_canonicalise_idem`. -/
theorem C5_witness :
    matchCanon (canonicalise "$Gold_name;") = none ∧
    canonicalise (canonicalise "$Gold_name;") = canonicalise "$Gold_name;" :=
  ⟨by decide, C5_canonicalise_idem "$Gold_name;" (by decide)⟩

/-! ## C2: mission-tagged inventory line scenario -/

/-- C2 counterexample: for inventory `[{Gold, Count=10, Stolen=0,
MissionID=7}]` and a ledger with mission 7 needing 6 non-stolen Gold, the
resulting entry does NOT show allocated(mission 7) = 6 and free = 4. -/
theorem C2_counterexample :
    ¬ (∃ e ∈ (populate_manifest (some [⟨"Gold", none, 10, 0, some 7⟩])
          [(7, ⟨"gold", "Gold", 6, 6, false, false⟩)] []).entries,
        (lookupA 7 e.missions).map MRec.count = some 6 ∧ e.count = 4) := by
  decide

/-- C2 (amended): on that input the Gold entry shows allocated(mission 7) =
10 and free = 0 (the mission-tagged line is allocated to its mission in
full during collation), with the outstanding need field still 6. -/
theorem C2_tagged_line_allocation :
    (populate_manifest (some [⟨"Gold", none, 10, 0, some 7⟩])
        [(7, ⟨"gold", "Gold", 6, 6, false, false⟩)] []).entries =
      [⟨"Gold", 0, 0, [(7, ⟨10, 0, some 6, none⟩)]⟩] := by decide

/-! ## C3: greedy first-come-first-served allocation -/

/-- C3 counterexample: with missions A=1 and B=2 each needing 10 non-stolen
Gold and a free pool of 12, mission B's outstanding-need field is not 8. -/
theorem C3_counterexample :
    ¬ (∃ e ∈ (populate_manifest (some [⟨"Gold", some "Gold", 12, 0, none⟩])
          [(1, ⟨"gold", "Gold", 10, 10, false, false⟩),
           (2, ⟨"gold", "Gold", 10, 10, false, false⟩)] []).entries,
        (lookupA 2 e.missions).map MRec.count_need = some (some 8)) := by
  decide

/-- C3 (amended): mission A (first in ledger order) is allocated the full
10, mission B gets the remaining 2, and B's outstanding-need field shows
the mission's full remaining requirement 10 — the need field is not
reduced by the partial allocation. -/
theorem C3_greedy_allocation :
    (populate_manifest (some [⟨"Gold", some "Gold", 12, 0, none⟩])
        [(1, ⟨"gold", "Gold", 10, 10, false, false⟩),
         (2, ⟨"gold", "Gold", 10, 10, false, false⟩)] []).entries =
      [⟨"Gold", 0, 0,
        [(1, ⟨10, 0, some 10, none⟩), (2, ⟨2, 0, some 10, none⟩)]⟩] := by
  decide

/-! ## C9: mission-only commodity is still emitted -/

/-- C9: with a ledger containing mission 9 needing 5 stolen Silver and an
inventory with no Silver lines, the output still contains a Silver entry
(display name from the mission's localised name) with allocated-stolen 0
and outstanding stolen need 5. -/
theorem C9_mission_only_commodity :
    (populate_manifest (some [])
        [(9, ⟨"silver", "Silver", 5, 5, false, true⟩)] []).entries =
      [⟨"Silver", 0, 0, [(9, ⟨0, 0, none, some 5⟩)]⟩] := by decide

/-! ## Helper lemmas: association lists -/

theorem lookupA_nil {κ α : Type} [DecidableEq κ] (k : κ) :
    lookupA k ([] : List (κ × α)) = none := rfl

theorem lookupA_cons {κ α : Type} [DecidableEq κ] (k : κ) (p : κ × α)
    (l : List (κ × α)) :
    lookupA k (p :: l) = if p.1 = k then some p.2 else lookupA k l := rfl

theorem updateA_nil {κ α : Type} [DecidableEq κ] (k : κ) (f : α → α) :
    updateA k f ([] : List (κ × α)) = [] := rfl

theorem updateA_cons {κ α : Type} [DecidableEq κ] (k : κ) (f : α → α)
    (p : κ × α) (l : List (κ × α)) :
    updateA k f (p :: l) =
      if p.1 = k then (p.1, f p.2) :: l else p :: updateA k f l := rfl

theorem lookupA_append_single {κ α : Type} [DecidableEq κ] (l : List (κ × α))
    (j k : κ) (v : α) :
    lookupA k (l ++ [(j, v)]) =
      match lookupA k l with
      | some w => some w
      | none => if j = k then some v else none := by
  induction l with
  | nil => simp [lookupA_cons, lookupA_nil]
  | cons p rest ih =>
    rw [List.cons_append, lookupA_cons, lookupA_cons]
    by_cases hp : p.1 = k
    · rw [if_pos hp, if_pos hp]
    · rw [if_neg hp, if_neg hp, ih]

theorem lookupA_updateA {κ α : Type} [DecidableEq κ] (l : List (κ × α))
    (k j : κ) (f : α → α) :
    lookupA j (updateA k f l) =
      if k = j then (lookupA j l).map f else lookupA j l := by
  induction l with
  | nil =>
    rw [updateA_nil, lookupA_nil]
    by_cases h : k = j
    · rw [if_pos h]; rfl
    · rw [if_neg h]
  | cons p rest ih =>
    rw [updateA_cons]
    by_cases hp : p.1 = k
    · rw [if_pos hp]
      by_cases hj : p.1 = j
      · rw [lookupA_cons, lookupA_cons]
        show (if p.1 = j then some (f p.2) else lookupA j rest) = _
        rw [if_pos hj, if_pos (hp ▸ hj), if_pos hj]
        rfl
      · have hkj : ¬ k = j := fun h => hj (h ▸ hp)
        rw [lookupA_cons, lookupA_cons]
        show (if p.1 = j then some (f p.2) else lookupA j rest) = _
        rw [if_neg hj, if_neg hj, if_neg hkj]
    · rw [if_neg hp, lookupA_cons, lookupA_cons]
      by_cases hj : p.1 = j
      · have hkj : ¬ k = j := fun h => hp ((h.trans hj.symm) ▸ rfl)
        rw [if_pos hj, if_pos hj, if_neg hkj]
      · rw [if_neg hj, if_neg hj, ih]

theorem lookupA_eq_none_iff {κ α : Type} [DecidableEq κ] (l : List (κ × α))
    (k : κ) : lookupA k l = none ↔ k ∉ l.map Prod.fst := by
  induction l with
  | nil => simp [lookupA_nil]
  | cons p rest ih =>
    rw [lookupA_cons]
    by_cases hp : p.1 = k
    · simp [hp]
    · simp only [if_neg hp, List.map_cons, List.mem_cons, ih]
      constructor
      · rintro h (h' | h')
        · exact hp h'.symm
        · exact h h'
      · intro h
        exact fun h' => h (Or.inr h')

theorem lookupA_setA {κ α : Type} [DecidableEq κ] (l : List (κ × α))
    (k j : κ) (v : α) :
    lookupA j (setA k v l) = if k = j then some v else lookupA j l := by
  unfold setA
  by_cases hs : (lookupA k l).isSome
  · rw [if_pos hs, lookupA_updateA]
    by_cases h : k = j
    · rw [if_pos h, if_pos h]
      subst h
      obtain ⟨w, hw⟩ := Option.isSome_iff_exists.mp hs
      rw [hw]
      rfl
    · rw [if_neg h, if_neg h]
  · rw [if_neg hs, lookupA_append_single]
    have hnone : lookupA k l = none := Option.not_isSome_iff_eq_none.mp hs
    by_cases h : k = j
    · subst h
      rw [hnone]
    · cases hw : lookupA j l with
      | some w =>
        show (some w : Option α) = if k = j then some v else some w
        rw [if_neg h]
      | none =>
        show (if k = j then some v else none) = if k = j then some v else none
        rfl

theorem keys_updateA {κ α : Type} [DecidableEq κ] (l : List (κ × α))
    (k : κ) (f : α → α) :
    (updateA k f l).map Prod.fst = l.map Prod.fst := by
  induction l with
  | nil => rfl
  | cons p rest ih =>
    rw [updateA_cons]
    by_cases hp : p.1 = k
    · rw [if_pos hp]
      rfl
    · rw [if_neg hp, List.map_cons, List.map_cons, ih]

theorem keys_setA {κ α : Type} [DecidableEq κ] (l : List (κ × α))
    (k : κ) (v : α) :
    (setA k v l).map Prod.fst =
      if k ∈ l.map Prod.fst then l.map Prod.fst
      else l.map Prod.fst ++ [k] := by
  unfold setA
  by_cases hs : (lookupA k l).isSome
  · have hk : k ∈ l.map Prod.fst := by
      by_contra hk
      rw [← lookupA_eq_none_iff] at hk
      rw [hk] at hs
      exact absurd hs (by simp)
    rw [if_pos hs, if_pos hk, keys_updateA]
  · have hk : k ∉ l.map Prod.fst := by
      rw [← lookupA_eq_none_iff]
      exact Option.not_isSome_iff_eq_none.mp hs
    rw [if_neg hs, if_neg hk, List.map_append]
    rfl

theorem nodup_keys_setA {κ α : Type} [DecidableEq κ] (l : List (κ × α))
    (k : κ) (v : α) (h : (l.map Prod.fst).Nodup) :
    ((setA k v l).map Prod.fst).Nodup := by
  rw [keys_setA]
  by_cases hk : k ∈ l.map Prod.fst
  · rwa [if_pos hk]
  · rw [if_neg hk]
    exact List.Nodup.append h (List.nodup_singleton k)
      (List.disjoint_singleton.mpr hk)

/-! ## C6: the mission acceptance filter -/

/-- C6 counterexample: an event with a `Commodity` field but no `Count`
field and a deliverable type is rejected by `add_mission`, so "returns
false exactly when ... the event lacks BOTH a commodity field and a count
field" is wrong: either missing field suffices. -/
theorem C6_counterexample :
    ¬ (((add_mission []
          ⟨"Mission_Delivery_x", 1, some "gold", none, none⟩).2 = false) ↔
        (rejectType ⟨"Mission_Delivery_x", 1, some "gold", none, none⟩ ∨
          ((⟨"Mission_Delivery_x", 1, some "gold", none, none⟩ :
              MissionEvent).Commodity = none ∧
            (⟨"Mission_Delivery_x", 1, some "gold", none, none⟩ :
              MissionEvent).Count = none))) := by
  decide

/-- C6 (amended): `add_mission` returns false and leaves the ledger
unchanged exactly when the type has an on-foot or sightseeing prefix, or
the event lacks its commodity field, or lacks its count field (either one
missing suffices); in every other case it inserts the record keyed by the
mission id with `remaining = total = count` and returns true. -/
theorem C6_accept_filter (ledger : List (Nat × Mission)) (ev : MissionEvent) :
    ((add_mission ledger ev).2 = false ↔
      rejectType ev ∨ ev.Commodity = none ∨ ev.Count = none) ∧
    ((add_mission ledger ev).2 = false → (add_mission ledger ev).1 = ledger) ∧
    (∀ c n, ev.Commodity = some c → ev.Count = some n → ¬ rejectType ev →
      (add_mission ledger ev).2 = true ∧
      lookupA ev.MissionID (add_mission ledger ev).1 =
        some (acceptedRecord ev c n) ∧
      (acceptedRecord ev c n).remaining = n ∧
      (acceptedRecord ev c n).total = n) := by
  by_cases hb : (pyStartsWith (pyLower ev.Name) "mission_onfoot_" ||
      pyStartsWith (pyLower ev.Name) "mission_sightseeing_") = true
  · have hr : rejectType ev := by
      unfold rejectType
      rw [← Bool.or_eq_true]
      exact hb
    have hm : add_mission ledger ev = (ledger, false) := by
      unfold add_mission
      rw [if_pos hb]
    rw [hm]
    exact ⟨iff_of_true rfl (Or.inl hr), fun _ => rfl,
      fun c n _ _ hnr => absurd hr hnr⟩
  · have hnr : ¬ rejectType ev := by
      unfold rejectType
      rw [← Bool.or_eq_true]
      exact hb
    cases hC : ev.Commodity with
    | none =>
      have hm : add_mission ledger ev = (ledger, false) := by
        unfold add_mission
        rw [if_neg hb, hC]
      rw [hm]
      exact ⟨iff_of_true rfl (Or.inr (Or.inl rfl)), fun _ => rfl,
        fun c n hc => Option.noConfusion hc⟩
    | some c0 =>
      cases hN : ev.Count with
      | none =>
        have hm : add_mission ledger ev = (ledger, false) := by
          unfold add_mission
          rw [if_neg hb, hC, hN]
        rw [hm]
        exact ⟨iff_of_true rfl (Or.inr (Or.inr rfl)), fun _ => rfl,
          fun c n _ hn => Option.noConfusion hn⟩
      | some n0 =>
        have hm : add_mission ledger ev =
            (setA ev.MissionID (acceptedRecord ev c0 n0) ledger, true) := by
          unfold add_mission
          rw [if_neg hb, hC, hN]
        rw [hm]
        refine ⟨iff_of_false (by simp) ?_, by simp, fun c n hc hn _ => ?_⟩
        · rintro (hr | hc | hn)
          · exact hnr hr
          · exact Option.noConfusion hc
          · exact Option.noConfusion hn
        · obtain rfl : c0 = c := Option.some.inj hc
          obtain rfl : n0 = n := Option.some.inj hn
          refine ⟨rfl, ?_, rfl, rfl⟩
          rw [lookupA_setA]
          rw [if_pos rfl]

/-- C6 witness: a concrete accepted delivery mission event inserted into an
empty ledger. -/
theorem C6_witness :
    (add_mission [] ⟨"Mission_Delivery_x", 1, some "$Gold_name;",
        some "Gold", some 5⟩).2 = true ∧
    lookupA 1 (add_mission [] ⟨"Mission_Delivery_x", 1, some "$Gold_name;",
        some "Gold", some 5⟩).1 =
      some (acceptedRecord ⟨"Mission_Delivery_x", 1, some "$Gold_name;",
        some "Gold", some 5⟩ "$Gold_name;" 5) :=
  ⟨((C6_accept_filter [] ⟨"Mission_Delivery_x", 1, some "$Gold_name;",
      some "Gold", some 5⟩).2.2 "$Gold_name;" 5 rfl rfl (by decide)).1,
   (((C6_accept_filter [] ⟨"Mission_Delivery_x", 1, some "$Gold_name;",
      some "Gold", some 5⟩).2.2 "$Gold_name;" 5 rfl rfl (by decide)).2).1⟩

/-! ## C10: re-accepting a mission overwrites its ledger record -/

/-- C10: accepting a mission whose id is already in the ledger overwrites
the record in place — the new record has `remaining = total = count` from
the event (discarding prior depot progress) — and still returns true; the
key set gains the id only when it was absent, so a ledger with unique ids
keeps unique ids. -/
theorem C10_reaccept_overwrites (ledger : List (Nat × Mission))
    (ev : MissionEvent) (c : String) (n : Int)
    (hc : ev.Commodity = some c) (hn : ev.Count = some n)
    (hb : ¬ rejectType ev) :
    (add_mission ledger ev).2 = true ∧
    lookupA ev.MissionID (add_mission ledger ev).1 =
      some (acceptedRecord ev c n) ∧
    ((add_mission ledger ev).1.map Prod.fst =
      if ev.MissionID ∈ ledger.map Prod.fst then ledger.map Prod.fst
      else ledger.map Prod.fst ++ [ev.MissionID]) ∧
    ((ledger.map Prod.fst).Nodup →
      ((add_mission ledger ev).1.map Prod.fst).Nodup) := by
  have hbb : ¬ (pyStartsWith (pyLower ev.Name) "mission_onfoot_" ||
      pyStartsWith (pyLower ev.Name) "mission_sightseeing_") = true := by
    rw [Bool.or_eq_true]
    exact hb
  have hm : add_mission ledger ev =
      (setA ev.MissionID (acceptedRecord ev c n) ledger, true) := by
    unfold add_mission
    rw [if_neg hbb, hc, hn]
  rw [hm]
  refine ⟨rfl, ?_, ?_, ?_⟩
  · rw [lookupA_setA, if_pos rfl]
  · exact keys_setA ledger ev.MissionID (acceptedRecord ev c n)
  · exact nodup_keys_setA ledger ev.MissionID (acceptedRecord ev c n)

/-- C10 witness: re-accepting mission id 1 (already present with depot
progress `remaining = 3`) resets its record and returns true. -/
theorem C10_witness :
    (add_mission [(1, ⟨"silver", "Silver", 9, 3, false, false⟩)]
        ⟨"Mission_Delivery_x", 1, some "gold", none, some 5⟩).2 = true ∧
    lookupA 1 (add_mission [(1, ⟨"silver", "Silver", 9, 3, false, false⟩)]
        ⟨"Mission_Delivery_x", 1, some "gold", none, some 5⟩).1 =
      some (acceptedRecord ⟨"Mission_Delivery_x", 1, some "gold", none,
        some 5⟩ "gold" 5) :=
  ⟨(C10_reaccept_overwrites [(1, ⟨"silver", "Silver", 9, 3, false, false⟩)]
      ⟨"Mission_Delivery_x", 1, some "gold", none, some 5⟩ "gold" 5
      rfl rfl (by decide)).1,
   (C10_reaccept_overwrites [(1, ⟨"silver", "Silver", 9, 3, false, false⟩)]
      ⟨"Mission_Delivery_x", 1, some "gold", none, some 5⟩ "gold" 5
      rfl rfl (by decide)).2.1⟩

/-! ## C8: depot-interaction updates -/

/-- C8: a CargoDepot event with an unknown mission id creates a ledger
entry with `stolen = false` and `remaining = TotalItemsToDeliver -
ItemsDelivered`; a known id has only its `remaining` field updated; all
other ids are untouched. -/
theorem C8_depot_update (ledger : List (Nat × Mission)) (ev : DepotEvent) :
    (lookupA ev.MissionID ledger = none →
      lookupA ev.MissionID (cargo_depot ledger ev) =
        some ⟨canonicalise ev.CargoType,
          ev.CargoType_Localised.getD ev.CargoType,
          ev.TotalItemsToDeliver,
          ev.TotalItemsToDeliver - ev.ItemsDelivered,
          decide (0 < ev.ItemsCollected), false⟩) ∧
    (∀ r, lookupA ev.MissionID ledger = some r →
      lookupA ev.MissionID (cargo_depot ledger ev) =
        some { r with
          remaining := ev.TotalItemsToDeliver - ev.ItemsDelivered }) ∧
    (∀ j, j ≠ ev.MissionID → lookupA j (cargo_depot ledger ev) =
      lookupA j ledger) := by
  unfold cargo_depot
  by_cases hs : (lookupA ev.MissionID ledger).isSome
  · rw [if_pos hs]
    obtain ⟨r0, hr0⟩ := Option.isSome_iff_exists.mp hs
    refine ⟨fun hnone => ?_, fun r hr => ?_, fun j hj => ?_⟩
    · rw [hnone] at hr0
      cases hr0
    · rw [lookupA_updateA, if_pos rfl, hr]
      rfl
    · rw [lookupA_updateA, if_neg (fun h => hj h.symm)]
  · rw [if_neg hs]
    refine ⟨fun _ => ?_, fun r hr => ?_, fun j hj => ?_⟩
    · rw [lookupA_setA, if_pos rfl]
    · rw [Option.not_isSome_iff_eq_none.mp hs] at hr
      cases hr
    · rw [lookupA_setA, if_neg (fun h => hj h.symm)]

/-- C8 witness: a depot event for unknown mission 3 creates the defaulted
record, and the same event against a ledger already tracking mission 3
updates only `remaining`. -/
theorem C8_witness :
    lookupA 3 (cargo_depot [] ⟨3, "Silver", none, 9, 4, 1⟩) =
      some ⟨"silver", "Silver", 9, 5, true, false⟩ ∧
    lookupA 3 (cargo_depot [(3, ⟨"silver", "Silver", 9, 9, false, true⟩)]
        ⟨3, "Silver", none, 9, 4, 1⟩) =
      some ⟨"silver", "Silver", 9, 5, false, true⟩ :=
  ⟨((C8_depot_update [] ⟨3, "Silver", none, 9, 4, 1⟩).1 rfl).trans
      (by decide),
   ((C8_depot_update [(3, ⟨"silver", "Silver", 9, 9, false, true⟩)]
      ⟨3, "Silver", none, 9, 4, 1⟩).2.1
      ⟨"silver", "Silver", 9, 9, false, true⟩ rfl).trans (by decide)⟩

/-! ## Helper lemmas: the string order used by the sort -/

theorem charLt_iff {a b : Char} : a < b ↔ a.toNat < b.toNat :=
  Char.lt_def.trans Iff.rfl

theorem char_eq_of_toNat_eq {a b : Char} (h : a.toNat = b.toNat) : a = b :=
  Char.ext (UInt32.toNat.inj h)

theorem pyCharListLt_iff_lt :
    ∀ x y : List Char, pyCharListLt x y = true ↔ x < y := by
  intro x
  induction x with
  | nil =>
    intro y
    cases y with
    | nil =>
      constructor
      · intro h
        exact absurd h (by simp [pyCharListLt])
      · intro h
        cases h
    | cons b bs =>
      constructor
      · intro _
        exact List.Lex.nil
      · intro _
        rfl
  | cons a as ih =>
    intro y
    cases y with
    | nil =>
      constructor
      · intro h
        exact absurd h (by simp [pyCharListLt])
      · intro h
        cases h
    | cons b bs =>
      rw [pyCharListLt]
      by_cases h1 : a.toNat < b.toNat
      · rw [if_pos h1]
        constructor
        · intro _
          exact List.Lex.rel (charLt_iff.mpr h1)
        · intro _
          rfl
      · rw [if_neg h1]
        by_cases h2 : b.toNat < a.toNat
        · rw [if_pos h2]
          constructor
          · intro h
            cases h
          · intro hlt
            cases hlt with
            | cons h => exact absurd h2 (Nat.lt_irrefl _)
            | rel h => exact absurd (charLt_iff.mp h) h1
        · rw [if_neg h2]
          obtain rfl : a = b := char_eq_of_toNat_eq (by omega)
          rw [ih bs]
          constructor
          · intro h
            exact List.Lex.cons h
          · intro hlt
            cases hlt with
            | cons h => exact h
            | rel h => exact absurd (charLt_iff.mp h) h1

theorem pyStrLe_iff_le (a b : String) : pyStrLe a b = true ↔ a ≤ b := by
  show _ ↔ ¬ b < a
  unfold pyStrLe
  rw [Bool.not_eq_true']
  constructor
  · intro h hlt
    have hlt' : pyCharListLt b.data a.data = true :=
      (pyCharListLt_iff_lt b.data a.data).mpr (String.lt_iff_toList_lt.mp hlt)
    rw [h] at hlt'
    cases hlt'
  · intro h
    cases hb : pyCharListLt b.data a.data
    · rfl
    · exact absurd (String.lt_iff_toList_lt.mpr
        ((pyCharListLt_iff_lt b.data a.data).mp hb)) h

instance : IsTotal Entry (fun a b => pyStrLe a.name b.name = true) :=
  ⟨fun a b => by
    rcases le_total a.name b.name with h | h
    · exact Or.inl ((pyStrLe_iff_le _ _).mpr h)
    · exact Or.inr ((pyStrLe_iff_le _ _).mpr h)⟩

instance : IsTrans Entry (fun a b => pyStrLe a.name b.name = true) :=
  ⟨fun _ _ _ h1 h2 => (pyStrLe_iff_le _ _).mpr
    (le_trans ((pyStrLe_iff_le _ _).mp h1) ((pyStrLe_iff_le _ _).mp h2))⟩

theorem filter_orderedInsert_name (s : String) (a : Entry) :
    ∀ l : List Entry,
      (List.orderedInsert (fun x y => pyStrLe x.name y.name = true) a l).filter
          (fun e => e.name == s) =
        if a.name == s then a :: l.filter (fun e => e.name == s)
        else l.filter (fun e => e.name == s) := by
  intro l
  induction l with
  | nil =>
    rw [List.orderedInsert_nil]
    simp only [List.filter_cons, List.filter_nil]
  | cons b t ih =>
    rw [List.orderedInsert]
    by_cases hab : pyStrLe a.name b.name = true
    · rw [if_pos hab]
      simp only [List.filter_cons]
    · rw [if_neg hab, List.filter_cons]
      by_cases hbs : (b.name == s) = true
      · rw [if_pos hbs, ih]
        by_cases has : (a.name == s) = true
        · exfalso
          have ha : a.name = s := by simpa using has
          have hb : b.name = s := by simpa using hbs
          exact hab ((pyStrLe_iff_le _ _).mpr (le_of_eq (ha.trans hb.symm)))
        · rw [if_neg has, if_neg has, List.filter_cons, if_pos hbs]
      · rw [if_neg hbs, ih]
        by_cases has : (a.name == s) = true
        · rw [if_pos has, if_pos has, List.filter_cons, if_neg hbs]
        · rw [if_neg has, if_neg has, List.filter_cons, if_neg hbs]

theorem filter_sortEntries (s : String) :
    ∀ l : List Entry, (sortEntries l).filter (fun e => e.name == s) =
      l.filter (fun e => e.name == s) := by
  intro l
  induction l with
  | nil => rfl
  | cons b t ih =>
    show (List.orderedInsert _ b (sortEntries t)).filter _ = _
    rw [filter_orderedInsert_name, ih, List.filter_cons]

/-! ## C4: output ordering of manifest entries -/

/-- C4 counterexample: the emitted order is NOT case-insensitive — with
display names `gold` and `Silver` the code emits `Silver` before `gold`
(code-point comparison, uppercase first), while a case-insensitive order
would put `gold` first. -/
theorem C4_counterexample :
    ¬ ((populate_manifest
          (some [⟨"x", some "gold", 1, 0, none⟩,
                 ⟨"y", some "Silver", 1, 0, none⟩]) [] []).entries.map
            Entry.name).Sorted ciLe := by
  decide

/-- C4 (amended): the Reconciler emits its entries ordered by display name
under case-SENSITIVE (code-point) lexicographic comparison — Python's
plain string order — and when two entries have equal display names the
original insertion order is preserved (the sort is stable: filtering the
sorted output by any fixed name yields the same list as filtering the
unsorted manifest values). -/
theorem C4_sorted_stable (inv : List CargoItem) (ms : List (Nat × Mission))
    (rare : List String) :
    ((populate_manifest (some inv) ms rare).entries.map Entry.name).Sorted
        (· ≤ ·) ∧
    (∀ s : String,
      (populate_manifest (some inv) ms rare).entries.filter
          (fun e => e.name == s) =
        ((attach (collate inv ms rare) ms).map Prod.snd).filter
          (fun e => e.name == s)) := by
  constructor
  · have h := List.sorted_insertionSort
      (fun a b : Entry => pyStrLe a.name b.name = true)
      ((attach (collate inv ms rare) ms).map Prod.snd)
    exact ((@List.pairwise_map Entry String Entry.name
      (fun x y => pyStrLe x y = true) _).mpr h).imp
      fun hab => (pyStrLe_iff_le _ _).mp hab
  · intro s
    exact filter_sortEntries s _

/-! ## Helper lemmas: preservation of predicates over dict updates -/

theorem lookupA_mem {κ α : Type} [DecidableEq κ] {k : κ} {v : α} :
    ∀ {l : List (κ × α)}, lookupA k l = some v → (k, v) ∈ l := by
  intro l
  induction l with
  | nil => intro h; cases h
  | cons p rest ih =>
    obtain ⟨k', v'⟩ := p
    intro h
    simp only [lookupA_cons] at h
    by_cases hp : k' = k
    · subst hp
      rw [if_pos rfl] at h
      obtain rfl : v' = v := Option.some.inj h
      exact List.mem_cons_self _ _
    · rw [if_neg hp] at h
      exact List.mem_cons.mpr (Or.inr (ih h))

theorem forall_updateA {κ α : Type} [DecidableEq κ] {P : α → Prop}
    (k : κ) (f : α → α) (hf : ∀ v, P v → P (f v)) :
    ∀ l : List (κ × α), (∀ p ∈ l, P p.2) → ∀ p ∈ updateA k f l, P p.2 := by
  intro l
  induction l with
  | nil =>
    intro _ p hp
    cases hp
  | cons q rest ih =>
    intro hl p hp
    rw [updateA_cons] at hp
    by_cases hq : q.1 = k
    · rw [if_pos hq] at hp
      rcases List.mem_cons.mp hp with rfl | hp'
      · exact hf _ (hl q (List.mem_cons_self q rest))
      · exact hl p (List.mem_cons.mpr (Or.inr hp'))
    · rw [if_neg hq] at hp
      rcases List.mem_cons.mp hp with rfl | hp'
      · exact hl p (List.mem_cons_self p rest)
      · exact ih (fun r hr => hl r (List.mem_cons.mpr (Or.inr hr))) p hp'

theorem forall_setA {κ α : Type} [DecidableEq κ] {P : α → Prop}
    (k : κ) (v : α) (hv : P v) (l : List (κ × α))
    (hl : ∀ p ∈ l, P p.2) : ∀ p ∈ setA k v l, P p.2 := by
  unfold setA
  by_cases hs : (lookupA k l).isSome
  · rw [if_pos hs]
    exact forall_updateA k (fun _ => v) (fun _ _ => hv) l hl
  · rw [if_neg hs]
    intro p hp
    rcases List.mem_append.mp hp with hp' | hp'
    · exact hl p hp'
    · obtain rfl : p = (k, v) := List.mem_singleton.mp hp'
      exact hv

theorem updateA_updateA {κ α : Type} [DecidableEq κ] (k : κ) (f g : α → α) :
    ∀ l : List (κ × α),
      updateA k g (updateA k f l) = updateA k (fun v => g (f v)) l := by
  intro l
  induction l with
  | nil => rfl
  | cons p rest ih =>
    rw [updateA_cons]
    by_cases hp : p.1 = k
    · rw [if_pos hp, updateA_cons]
      show (if p.1 = k then _ else _) = _
      rw [if_pos hp, updateA_cons, if_pos hp]
    · rw [if_neg hp, updateA_cons, updateA_cons, if_neg hp, if_neg hp, ih]

theorem updateA_append_absent {κ α : Type} [DecidableEq κ] (k : κ)
    (g : α → α) :
    ∀ (l : List (κ × α)) (v : α), lookupA k l = none →
      updateA k g (l ++ [(k, v)]) = l ++ [(k, g v)] := by
  intro l
  induction l with
  | nil =>
    intro v _
    show (if k = k then _ else _) = _
    rw [if_pos rfl]
    rfl
  | cons p rest ih =>
    intro v hk
    rw [lookupA_cons] at hk
    by_cases hp : p.1 = k
    · rw [if_pos hp] at hk
      cases hk
    · rw [if_neg hp] at hk
      rw [List.cons_append, updateA_cons, if_neg hp, ih v hk]
      rfl

/-! ## C7: non-negativity of every reconciler output quantity -/

theorem collateStep_nonneg (ms : List (Nat × Mission)) (rare : List String)
    (m : List (String × Entry)) (item : CargoItem)
    (hm : ∀ p ∈ m, EntryNonneg p.2)
    (hi : 0 ≤ item.Stolen ∧ item.Stolen ≤ item.Count) :
    ∀ p ∈ collateStep ms rare m item, EntryNonneg p.2 := by
  unfold collateStep
  dsimp only
  have hzero : (0 : Int) ≤ item.Count - item.Stolen := by omega
  by_cases hk : (lookupA (canonicalise item.Name) m).isSome
  · rw [if_pos hk]
    cases hmid : item.MissionID with
    | none =>
      dsimp only
      refine forall_updateA _ _ ?_ m hm
      intro e he
      refine ⟨?_, ?_, he.2.2⟩
      · show (0 : Int) ≤ e.count + (item.Count - item.Stolen)
        have := he.1
        omega
      · show (0 : Int) ≤ e.stolen + item.Stolen
        have := he.2.1
        omega
    | some mid =>
      dsimp only
      rw [updateA_updateA]
      refine forall_updateA _ _ ?_ m hm
      intro e he
      refine ⟨?_, ?_, ?_⟩
      · show (0 : Int) ≤
          e.count + (item.Count - item.Stolen) - (item.Count - item.Stolen)
        have := he.1
        omega
      · show (0 : Int) ≤ e.stolen + item.Stolen - item.Stolen
        have := he.2.1
        omega
      · show ∀ p ∈ setA mid
            (⟨item.Count - item.Stolen, item.Stolen, none, none⟩ : MRec)
            e.missions, MRecNonneg p.2
        refine forall_setA mid _ ?_ e.missions he.2.2
        refine ⟨hzero, hi.1, ?_, ?_⟩
        · intro n h
          cases h
        · intro n h
          cases h
  · rw [if_neg hk]
    cases hmid : item.MissionID with
    | none =>
      dsimp only
      intro p hp
      rcases List.mem_append.mp hp with hp' | hp'
      · exact hm p hp'
      · obtain rfl := List.mem_singleton.mp hp'
        exact ⟨hzero, hi.1, fun q hq => by cases hq⟩
    | some mid =>
      dsimp only
      rw [updateA_append_absent _ _ m _ (Option.not_isSome_iff_eq_none.mp hk)]
      intro p hp
      rcases List.mem_append.mp hp with hp' | hp'
      · exact hm p hp'
      · obtain rfl := List.mem_singleton.mp hp'
        refine ⟨?_, ?_, ?_⟩
        · show (0 : Int) ≤
            item.Count - item.Stolen - (item.Count - item.Stolen)
          omega
        · show (0 : Int) ≤ item.Stolen - item.Stolen
          omega
        · show ∀ p ∈ setA mid
              (⟨item.Count - item.Stolen, item.Stolen, none, none⟩ : MRec)
              [], MRecNonneg p.2
          refine forall_setA mid _ ?_ [] (fun q hq => by cases hq)
          refine ⟨hzero, hi.1, ?_, ?_⟩
          · intro n h
            cases h
          · intro n h
            cases h

theorem collate_nonneg (ms : List (Nat × Mission)) (rare : List String) :
    ∀ (inv : List CargoItem) (m : List (String × Entry)),
      (∀ i ∈ inv, 0 ≤ i.Stolen ∧ i.Stolen ≤ i.Count) →
      (∀ p ∈ m, EntryNonneg p.2) →
      ∀ p ∈ inv.foldl (collateStep ms rare) m, EntryNonneg p.2 := by
  intro inv
  induction inv with
  | nil => intro m _ hm; exact hm
  | cons i rest ih =>
    intro m hinv hm
    rw [List.foldl_cons]
    exact ih (collateStep ms rare m i)
      (fun j hj => hinv j (List.mem_cons.mpr (Or.inr hj)))
      (collateStep_nonneg ms rare m i hm (hinv i (List.mem_cons_self i rest)))

theorem needTruthy_some {o : Option Int} (h : needTruthy o = true) :
    ∃ n, o = some n ∧ n ≠ 0 := by
  cases o with
  | none => cases h
  | some n => exact ⟨n, rfl, by simpa [needTruthy] using h⟩

theorem allocCountStep_nonneg (mid : Nat) (e : Entry) (he : EntryNonneg e) :
    EntryNonneg (allocCountStep mid e) := by
  unfold allocCountStep
  split
  · exact he
  next r hr =>
    split
    next hc =>
      have hrm : MRecNonneg r := he.2.2 (mid, r) (lookupA_mem hr)
      obtain ⟨n, hn, hn0⟩ := needTruthy_some hc.2
      have hnn : 0 ≤ n := hrm.2.2.1 n hn
      have hmin : 0 ≤ min e.count (r.count_need.getD 0) := by
        rw [hn]
        have := hc.1
        simp only [Option.getD_some]
        omega
      refine ⟨?_, he.2.1, ?_⟩
      · show (0 : Int) ≤ e.count - min e.count (r.count_need.getD 0)
        have := min_le_left e.count (r.count_need.getD 0)
        have := he.1
        omega
      · refine forall_updateA _ _ ?_ _ he.2.2
        intro v hv
        exact ⟨hmin, hv.2.1, hv.2.2.1, hv.2.2.2⟩
    next => exact he

theorem allocStolenStep_nonneg (mid : Nat) (e : Entry) (he : EntryNonneg e) :
    EntryNonneg (allocStolenStep mid e) := by
  unfold allocStolenStep
  split
  · exact he
  next r hr =>
    split
    next hc =>
      have hrm : MRecNonneg r := he.2.2 (mid, r) (lookupA_mem hr)
      obtain ⟨n, hn, hn0⟩ := needTruthy_some hc.2
      have hnn : 0 ≤ n := hrm.2.2.2 n hn
      have hmin : 0 ≤ min e.stolen (r.stolen_need.getD 0) := by
        rw [hn]
        have := hc.1
        simp only [Option.getD_some]
        omega
      refine ⟨he.1, ?_, ?_⟩
      · show (0 : Int) ≤ e.stolen - min e.stolen (r.stolen_need.getD 0)
        have := min_le_left e.stolen (r.stolen_need.getD 0)
        have := he.2.1
        omega
      · refine forall_updateA _ _ ?_ _ he.2.2
        intro v hv
        exact ⟨hv.1, hmin, hv.2.2.1, hv.2.2.2⟩
    next => exact he

theorem attachEntry_nonneg (mid : Nat) (mission : Mission)
    (hrem : 0 ≤ mission.remaining) (e : Entry) (he : EntryNonneg e) :
    EntryNonneg (attachEntry mid mission e) := by
  unfold attachEntry
  have hms0 : ∀ p ∈ (if (lookupA mid e.missions).isSome then e.missions
      else e.missions ++ [(mid, ⟨0, 0, none, none⟩)]), MRecNonneg p.2 := by
    by_cases hs : (lookupA mid e.missions).isSome
    · rw [if_pos hs]
      exact he.2.2
    · rw [if_neg hs]
      intro p hp
      rcases List.mem_append.mp hp with hp' | hp'
      · exact he.2.2 p hp'
      · obtain rfl := List.mem_singleton.mp hp'
        refine ⟨le_refl 0, le_refl 0, ?_, ?_⟩
        · intro n h
          cases h
        · intro n h
          cases h
  refine allocStolenStep_nonneg mid _ (allocCountStep_nonneg mid _ ?_)
  refine ⟨he.1, he.2.1, ?_⟩
  refine forall_updateA _ _ ?_ _ hms0
  intro r hr
  unfold setNeed
  by_cases hst : mission.stolen
  · rw [if_pos hst]
    refine ⟨hr.1, hr.2.1, hr.2.2.1, ?_⟩
    intro n h
    have h' : some mission.remaining = some n := h
    rw [← Option.some.inj h']
    exact hrem
  · rw [if_neg hst]
    refine ⟨hr.1, hr.2.1, ?_, hr.2.2.2⟩
    intro n h
    have h' : some mission.remaining = some n := h
    rw [← Option.some.inj h']
    exact hrem

theorem attachStep_nonneg (m : List (String × Entry)) (pm : Nat × Mission)
    (hm : ∀ p ∈ m, EntryNonneg p.2) (hrem : 0 ≤ pm.2.remaining) :
    ∀ p ∈ attachStep m pm, EntryNonneg p.2 := by
  unfold attachStep
  have hm1 : ∀ p ∈ (if (lookupA pm.2.name m).isSome then m
      else m ++ [(pm.2.name, ⟨pm.2.name_localised, 0, 0, []⟩)]),
      EntryNonneg p.2 := by
    by_cases hs : (lookupA pm.2.name m).isSome
    · rw [if_pos hs]
      exact hm
    · rw [if_neg hs]
      intro p hp
      rcases List.mem_append.mp hp with hp' | hp'
      · exact hm p hp'
      · obtain rfl := List.mem_singleton.mp hp'
        exact ⟨le_refl 0, le_refl 0, fun q hq => by cases hq⟩
  exact forall_updateA _ _ (fun e he => attachEntry_nonneg pm.1 pm.2 hrem e he)
    _ hm1

theorem attach_nonneg :
    ∀ (ms : List (Nat × Mission)) (m : List (String × Entry)),
      (∀ q ∈ ms, 0 ≤ q.2.remaining) →
      (∀ p ∈ m, EntryNonneg p.2) →
      ∀ p ∈ attach m ms, EntryNonneg p.2 := by
  intro ms
  induction ms with
  | nil => intro m _ hm; exact hm
  | cons q rest ih =>
    intro m hms hm
    show ∀ p ∈ List.foldl attachStep (attachStep m q) rest, EntryNonneg p.2
    exact ih (attachStep m q)
      (fun j hj => hms j (List.mem_cons.mpr (Or.inr hj)))
      (attachStep_nonneg m q hm (hms q (List.mem_cons_self q rest)))

/-- C7: with inventory lines satisfying `0 ≤ Stolen ≤ Count` and ledger
missions satisfying `0 ≤ remaining`, every quantity in every emitted
manifest entry — free count, free stolen count, per-mission allocated and
allocated-stolen counts, and both outstanding-need fields — is
non-negative. -/
theorem C7_nonneg (inv : List CargoItem) (ms : List (Nat × Mission))
    (rare : List String)
    (hinv : ∀ i ∈ inv, 0 ≤ i.Stolen ∧ i.Stolen ≤ i.Count)
    (hms : ∀ q ∈ ms, 0 ≤ q.2.remaining) :
    ∀ e ∈ (populate_manifest (some inv) ms rare).entries, EntryNonneg e := by
  intro e he
  have he' : e ∈ (attach (collate inv ms rare) ms).map Prod.snd :=
    (List.mem_insertionSort _).mp he
  obtain ⟨p, hp, rfl⟩ := List.mem_map.mp he'
  exact attach_nonneg ms (collate inv ms rare) hms
    (collate_nonneg ms rare inv [] hinv (fun q hq => by cases hq)) p hp

/-- C7 witness: the two-mission Gold scenario with a stolen sub-count
satisfies the hypotheses, and every emitted quantity is non-negative. -/
theorem C7_witness :
    (∀ i ∈ [(⟨"Gold", some "Gold", 12, 2, none⟩ : CargoItem)],
      0 ≤ i.Stolen ∧ i.Stolen ≤ i.Count) ∧
    (∀ e ∈ (populate_manifest (some [⟨"Gold", some "Gold", 12, 2, none⟩])
        [(1, ⟨"gold", "Gold", 10, 10, false, false⟩)] []).entries,
      EntryNonneg e) :=
  ⟨by decide,
   C7_nonneg [⟨"Gold", some "Gold", 12, 2, none⟩]
     [(1, ⟨"gold", "Gold", 10, 10, false, false⟩)] []
     (by decide) (by decide)⟩

/-! ## Helper lemmas: unit sums -/

theorem recSum_nil : recSum [] = 0 := rfl

theorem recSum_cons (p : Nat × MRec) (ms : List (Nat × MRec)) :
    recSum (p :: ms) = (p.2.count + p.2.stolen) + recSum ms := by
  unfold recSum
  rw [List.map_cons, List.sum_cons]

theorem recSum_append_single (ms : List (Nat × MRec)) (p : Nat × MRec) :
    recSum (ms ++ [p]) = recSum ms + (p.2.count + p.2.stolen) := by
  unfold recSum
  rw [List.map_append, List.sum_append, List.map_singleton, List.sum_singleton]

theorem recSum_updateA_some (mid : Nat) (f : MRec → MRec) :
    ∀ (ms : List (Nat × MRec)) (r : MRec), lookupA mid ms = some r →
      recSum (updateA mid f ms) =
        recSum ms + ((f r).count + (f r).stolen) - (r.count + r.stolen) := by
  intro ms
  induction ms with
  | nil => intro r h; cases h
  | cons p rest ih =>
    obtain ⟨k, v⟩ := p
    intro r h
    simp only [lookupA_cons] at h
    rw [updateA_cons]
    by_cases hk : k = mid
    · rw [if_pos hk] at h ⊢
      obtain rfl : v = r := Option.some.inj h
      rw [recSum_cons, recSum_cons]
      dsimp only
      omega
    · rw [if_neg hk] at h ⊢
      rw [recSum_cons, recSum_cons, ih r h]
      omega

theorem setNeed_count (mission : Mission) (r : MRec) :
    (setNeed mission r).count = r.count := by
  unfold setNeed
  split <;> rfl

theorem setNeed_stolen (mission : Mission) (r : MRec) :
    (setNeed mission r).stolen = r.stolen := by
  unfold setNeed
  split <;> rfl

theorem keySum_eq_of_lookup (m m' : List (String × Entry)) (k : String)
    (h : lookupA k m' = lookupA k m) : keySum m' k = keySum m k := by
  unfold keySum
  rw [h]

theorem lookupA_append_self {κ α : Type} [DecidableEq κ] (l : List (κ × α))
    (k : κ) (v : α) (h : lookupA k l = none) :
    lookupA k (l ++ [(k, v)]) = some v := by
  rw [lookupA_append_single, h]
  show (if k = k then some v else none) = some v
  rw [if_pos rfl]

theorem lookupA_append_ne {κ α : Type} [DecidableEq κ] (l : List (κ × α))
    (j k : κ) (v : α) (h : j ≠ k) :
    lookupA k (l ++ [(j, v)]) = lookupA k l := by
  rw [lookupA_append_single]
  cases hw : lookupA k l with
  | some w => rfl
  | none =>
    show (if j = k then some v else none) = none
    rw [if_neg h]

/-! ## Conservation of units through the attach phase -/

theorem entrySum_allocCountStep (mid : Nat) (e : Entry)
    (hr : ∀ r, lookupA mid e.missions = some r → r.count = 0) :
    entrySum (allocCountStep mid e) = entrySum e := by
  unfold allocCountStep
  split
  · rfl
  next r hlk =>
    split
    next hc =>
      have hc0 : r.count = 0 := hr r hlk
      unfold entrySum
      dsimp only
      rw [recSum_updateA_some mid _ e.missions r hlk]
      dsimp only
      omega
    next => rfl

theorem entrySum_allocStolenStep (mid : Nat) (e : Entry)
    (hr : ∀ r, lookupA mid e.missions = some r → r.stolen = 0) :
    entrySum (allocStolenStep mid e) = entrySum e := by
  unfold allocStolenStep
  split
  · rfl
  next r hlk =>
    split
    next hc =>
      have hc0 : r.stolen = 0 := hr r hlk
      unfold entrySum
      dsimp only
      rw [recSum_updateA_some mid _ e.missions r hlk]
      dsimp only
      omega
    next => rfl

theorem allocCountStep_stolen_eq (mid : Nat) (e : Entry) :
    ∀ r', lookupA mid (allocCountStep mid e).missions = some r' →
      ∃ r, lookupA mid e.missions = some r ∧ r'.stolen = r.stolen := by
  unfold allocCountStep
  split
  · intro r' h
    exact ⟨r', h, rfl⟩
  next r hlk =>
    split
    next =>
      intro r' h
      dsimp only at h
      rw [lookupA_updateA, if_pos rfl, hlk, Option.map_some'] at h
      refine ⟨r, hlk, ?_⟩
      rw [← Option.some.inj h]
    next =>
      intro r' h
      exact ⟨r', h, rfl⟩

theorem lookupA_missions_allocCountStep (mid j : Nat) (e : Entry)
    (hj : mid ≠ j) :
    lookupA j (allocCountStep mid e).missions = lookupA j e.missions := by
  unfold allocCountStep
  split
  · rfl
  next r hlk =>
    split
    next =>
      dsimp only
      rw [lookupA_updateA, if_neg hj]
    next => rfl

theorem lookupA_missions_allocStolenStep (mid j : Nat) (e : Entry)
    (hj : mid ≠ j) :
    lookupA j (allocStolenStep mid e).missions = lookupA j e.missions := by
  unfold allocStolenStep
  split
  · rfl
  next r hlk =>
    split
    next =>
      dsimp only
      rw [lookupA_updateA, if_neg hj]
    next => rfl

theorem entrySum_attachEntry (mid : Nat) (mission : Mission) (e : Entry)
    (hfresh : lookupA mid e.missions = none) :
    entrySum (attachEntry mid mission e) = entrySum e := by
  unfold attachEntry
  have hs : ¬ ((lookupA mid e.missions).isSome = true) := by
    rw [hfresh]
    simp
  rw [if_neg hs]
  have h0 : lookupA mid (e.missions ++ [(mid, (⟨0, 0, none, none⟩ : MRec))]) =
      some ⟨0, 0, none, none⟩ :=
    lookupA_append_self e.missions mid _ hfresh
  have h1 : lookupA mid (updateA mid (setNeed mission)
      (e.missions ++ [(mid, (⟨0, 0, none, none⟩ : MRec))])) =
      some (setNeed mission ⟨0, 0, none, none⟩) := by
    rw [lookupA_updateA, if_pos rfl, h0, Option.map_some']
  have hesum1 : entrySum { e with missions := (updateA mid (setNeed mission)
      (e.missions ++ [(mid, (⟨0, 0, none, none⟩ : MRec))])) } = entrySum e := by
    unfold entrySum
    dsimp only
    rw [recSum_updateA_some mid _ _ _ h0, recSum_append_single,
      setNeed_count, setNeed_stolen]
    dsimp only
    omega
  have hcnt : ∀ r, lookupA mid ({ e with missions := (updateA mid
      (setNeed mission) (e.missions ++ [(mid, (⟨0, 0, none, none⟩ : MRec))]))} :
      Entry).missions = some r → r.count = 0 := by
    intro r h
    dsimp only at h
    rw [h1] at h
    rw [← Option.some.inj h, setNeed_count]
  have hstl : ∀ r', lookupA mid (allocCountStep mid { e with missions :=
      (updateA mid (setNeed mission)
      (e.missions ++ [(mid, (⟨0, 0, none, none⟩ : MRec))]))}).missions =
      some r' → r'.stolen = 0 := by
    intro r' h
    obtain ⟨r, hr, hst⟩ := allocCountStep_stolen_eq mid _ r' h
    dsimp only at hr
    rw [h1] at hr
    rw [hst, ← Option.some.inj hr, setNeed_stolen]
  rw [entrySum_allocStolenStep mid _ hstl, entrySum_allocCountStep mid _ hcnt,
    hesum1]

/-! ## Conservation of units through the collation phase -/

theorem rawTotal_nil (k : String) : rawTotal [] k = 0 := rfl

theorem rawTotal_cons (i : CargoItem) (inv : List CargoItem) (k : String) :
    rawTotal (i :: inv) k =
      (if canonicalise i.Name = k then i.Count else 0) + rawTotal inv k := by
  unfold rawTotal
  rw [List.filter_cons]
  by_cases h : canonicalise i.Name = k
  · rw [if_pos (decide_eq_true h), if_pos h, List.map_cons, List.sum_cons]
  · rw [if_neg (by simp [h]), if_neg h]
    omega

theorem keySum_collateStep_nomid (ms : List (Nat × Mission))
    (rare : List String) (m : List (String × Entry)) (item : CargoItem)
    (hmid : item.MissionID = none) (k : String) :
    keySum (collateStep ms rare m item) k =
      keySum m k + (if canonicalise item.Name = k then item.Count else 0) := by
  unfold collateStep
  dsimp only
  rw [hmid]
  by_cases hk : (lookupA (canonicalise item.Name) m).isSome
  · rw [if_pos hk]
    obtain ⟨e, he⟩ := Option.isSome_iff_exists.mp hk
    unfold keySum
    rw [lookupA_updateA]
    by_cases hkey : canonicalise item.Name = k
    · rw [if_pos hkey, if_pos hkey]
      rw [hkey] at he
      rw [he, Option.map_some', Option.map_some', Option.getD_some,
        Option.map_some', Option.getD_some]
      unfold entrySum
      dsimp only
      omega
    · rw [if_neg hkey, if_neg hkey]
      omega
  · rw [if_neg hk]
    have hnone : lookupA (canonicalise item.Name) m = none :=
      Option.not_isSome_iff_eq_none.mp hk
    unfold keySum
    by_cases hkey : canonicalise item.Name = k
    · rw [← hkey, lookupA_append_self _ _ _ hnone, hnone, if_pos rfl]
      rw [Option.map_some', Option.getD_some, Option.map_none',
        Option.getD_none]
      unfold entrySum
      dsimp only
      rw [recSum_nil]
      omega
    · rw [if_neg hkey,
        lookupA_append_ne _ _ _ _ (fun h => hkey h)]
      omega

theorem keySum_collate (ms : List (Nat × Mission)) (rare : List String) :
    ∀ (inv : List CargoItem) (m : List (String × Entry)),
      (∀ i ∈ inv, i.MissionID = none) →
      ∀ k, keySum (inv.foldl (collateStep ms rare) m) k =
        keySum m k + rawTotal inv k := by
  intro inv
  induction inv with
  | nil =>
    intro m _ k
    rw [List.foldl_nil, rawTotal_nil]
    omega
  | cons i rest ih =>
    intro m hinv k
    rw [List.foldl_cons, rawTotal_cons,
      ih (collateStep ms rare m i)
        (fun j hj => hinv j (List.mem_cons.mpr (Or.inr hj))) k,
      keySum_collateStep_nomid ms rare m i
        (hinv i (List.mem_cons_self i rest)) k]
    omega

theorem collateStep_missions_nil (ms : List (Nat × Mission))
    (rare : List String) (m : List (String × Entry)) (item : CargoItem)
    (hmid : item.MissionID = none)
    (hm : ∀ p ∈ m, p.2.missions = ([] : List (Nat × MRec))) :
    ∀ p ∈ collateStep ms rare m item, p.2.missions = [] := by
  unfold collateStep
  dsimp only
  rw [hmid]
  by_cases hk : (lookupA (canonicalise item.Name) m).isSome
  · rw [if_pos hk]
    refine @forall_updateA String Entry _ (fun v => v.missions = [])
      (canonicalise item.Name) _ ?_ m hm
    intro v hv
    exact hv
  · rw [if_neg hk]
    intro p hp
    rcases List.mem_append.mp hp with hp' | hp'
    · exact hm p hp'
    · obtain rfl := List.mem_singleton.mp hp'
      rfl

theorem collate_missions_nil (ms : List (Nat × Mission))
    (rare : List String) :
    ∀ (inv : List CargoItem) (m : List (String × Entry)),
      (∀ i ∈ inv, i.MissionID = none) →
      (∀ p ∈ m, p.2.missions = ([] : List (Nat × MRec))) →
      ∀ p ∈ inv.foldl (collateStep ms rare) m, p.2.missions = [] := by
  intro inv
  induction inv with
  | nil => intro m _ hm; exact hm
  | cons i rest ih =>
    intro m hinv hm
    rw [List.foldl_cons]
    exact ih (collateStep ms rare m i)
      (fun j hj => hinv j (List.mem_cons.mpr (Or.inr hj)))
      (collateStep_missions_nil ms rare m i
        (hinv i (List.mem_cons_self i rest)) hm)

theorem lookupA_missions_attachEntry_ne (mid j : Nat) (mission : Mission)
    (e : Entry) (hj : j ≠ mid) :
    lookupA j (attachEntry mid mission e).missions = lookupA j e.missions := by
  unfold attachEntry
  rw [lookupA_missions_allocStolenStep mid j _ (fun h => hj h.symm),
    lookupA_missions_allocCountStep mid j _ (fun h => hj h.symm)]
  dsimp only
  rw [lookupA_updateA, if_neg (fun h => hj h.symm)]
  by_cases hs : (lookupA mid e.missions).isSome
  · rw [if_pos hs]
  · rw [if_neg hs]
    exact lookupA_append_ne _ _ _ _ (fun h => hj h.symm)

theorem attachStep_fresh (m : List (String × Entry)) (mid : Nat)
    (mission : Mission) (j : Nat) (hj : j ≠ mid)
    (hfresh : ∀ p ∈ m, lookupA j p.2.missions = none) :
    ∀ p ∈ attachStep m (mid, mission), lookupA j p.2.missions = none := by
  unfold attachStep
  dsimp only
  have hm1 : ∀ p ∈ (if (lookupA mission.name m).isSome then m
      else m ++ [(mission.name, ⟨mission.name_localised, 0, 0, []⟩)]),
      lookupA j p.2.missions = none := by
    by_cases hs : (lookupA mission.name m).isSome
    · rw [if_pos hs]
      exact hfresh
    · rw [if_neg hs]
      intro p hp
      rcases List.mem_append.mp hp with hp' | hp'
      · exact hfresh p hp'
      · obtain rfl := List.mem_singleton.mp hp'
        rfl
  refine @forall_updateA String Entry _
    (fun v => lookupA j v.missions = none) mission.name _ ?_ _ hm1
  intro v hv
  rw [lookupA_missions_attachEntry_ne mid j mission v hj]
  exact hv

theorem keySum_attachStep (m : List (String × Entry)) (mid : Nat)
    (mission : Mission)
    (hfresh : ∀ p ∈ m, lookupA mid p.2.missions = none) (k : String) :
    keySum (attachStep m (mid, mission)) k = keySum m k := by
  unfold attachStep
  dsimp only
  by_cases hn : (lookupA mission.name m).isSome
  · rw [if_pos hn]
    obtain ⟨e, he⟩ := Option.isSome_iff_exists.mp hn
    have hfr : lookupA mid e.missions = none :=
      hfresh (mission.name, e) (lookupA_mem he)
    unfold keySum
    rw [lookupA_updateA]
    by_cases hkey : mission.name = k
    · rw [if_pos hkey]
      rw [hkey] at he
      rw [he, Option.map_some', Option.map_some', Option.getD_some,
        Option.map_some', Option.getD_some,
        entrySum_attachEntry mid mission e hfr]
    · rw [if_neg hkey]
  · rw [if_neg hn]
    have hnone : lookupA mission.name m = none :=
      Option.not_isSome_iff_eq_none.mp hn
    unfold keySum
    rw [lookupA_updateA]
    by_cases hkey : mission.name = k
    · rw [if_pos hkey]
      rw [← hkey, lookupA_append_self _ _ _ hnone, hnone]
      rw [Option.map_some', Option.map_some', Option.getD_some,
        Option.map_none', Option.getD_none,
        entrySum_attachEntry mid mission _ (by rfl)]
      unfold entrySum
      dsimp only
      rw [recSum_nil]
      omega
    · rw [if_neg hkey, lookupA_append_ne _ _ _ _ hkey]

theorem keySum_attach :
    ∀ (ms : List (Nat × Mission)) (m : List (String × Entry)),
      (ms.map Prod.fst).Nodup →
      (∀ q ∈ ms, ∀ p ∈ m, lookupA q.1 p.2.missions = none) →
      ∀ k, keySum (attach m ms) k = keySum m k := by
  intro ms
  induction ms with
  | nil => intro m _ _ k; rfl
  | cons q rest ih =>
    obtain ⟨mid, mission⟩ := q
    intro m hnd hfresh k
    rw [List.map_cons, List.nodup_cons] at hnd
    have hf0 : ∀ p ∈ m, lookupA mid p.2.missions = none :=
      hfresh (mid, mission) (List.mem_cons_self _ _)
    have hfresh' : ∀ q' ∈ rest, ∀ p ∈ attachStep m (mid, mission),
        lookupA q'.1 p.2.missions = none := by
      intro q' hq' p hp
      have hjne : q'.1 ≠ mid := by
        intro heq
        apply hnd.1
        rw [← heq]
        exact List.mem_map.mpr ⟨q', hq', rfl⟩
      exact attachStep_fresh m mid mission q'.1 hjne
        (fun p' hp' => hfresh q' (List.mem_cons.mpr (Or.inr hq')) p' hp') p hp
    show keySum (List.foldl attachStep (attachStep m (mid, mission)) rest) k = _
    calc keySum (List.foldl attachStep (attachStep m (mid, mission)) rest) k
        = keySum (attachStep m (mid, mission)) k :=
          ih (attachStep m (mid, mission)) hnd.2 hfresh' k
      _ = keySum m k := keySum_attachStep m mid mission hf0 k

/-! ## C1: conservation of units -/

/-- C1 counterexample: conservation fails on a snapshot with a
mission-tagged line.  Inventory
`[{Gold, 10, 0, MissionID=7}, {Gold, 4, 0}]` with mission 7 needing 6
non-stolen Gold yields a Gold entry whose free + stolen + allocations sum
to 4 while the raw Count total is 14: the greedy allocation pass
overwrites the tagged line's 10-unit allocation record with the 4 units
taken from the free pool. -/
theorem C1_counterexample :
    ¬ (∀ e ∈ (populate_manifest
        (some [⟨"Gold", some "Gold", 10, 0, some 7⟩,
               ⟨"Gold", some "Gold", 4, 0, none⟩])
        [(7, ⟨"gold", "Gold", 6, 6, false, false⟩)] []).entries,
      entrySum e = rawTotal
        [⟨"Gold", some "Gold", 10, 0, some 7⟩,
         ⟨"Gold", some "Gold", 4, 0, none⟩] "gold") := by
  decide

/-- C1 (amended): for every snapshot in which no inventory line carries a
mission id, and every ledger with (dict-unique) mission ids, conservation
holds for every commodity key: the entry's free count plus free stolen
count plus the sum of per-mission allocated and allocated-stolen counts
equals the sum of raw `Count` over all lines of that key; the reconciler's
emitted entries are a permutation of those keyed entries.  (With
mission-tagged lines the equation can fail: an allocation record written
by a tagged line is overwritten — not added to — by the greedy allocation
pass, and by any later line with the same key and mission id.) -/
theorem C1_conservation (inv : List CargoItem) (ms : List (Nat × Mission))
    (rare : List String)
    (htag : ∀ i ∈ inv, i.MissionID = none)
    (hnd : (ms.map Prod.fst).Nodup) :
    (∀ k, keySum (attach (collate inv ms rare) ms) k = rawTotal inv k) ∧
    ((populate_manifest (some inv) ms rare).entries.Perm
      ((attach (collate inv ms rare) ms).map Prod.snd)) := by
  constructor
  · intro k
    have hnil : ∀ p ∈ collate inv ms rare, p.2.missions = [] :=
      collate_missions_nil ms rare inv [] htag (fun q hq => by cases hq)
    have hfresh : ∀ q ∈ ms, ∀ p ∈ collate inv ms rare,
        lookupA q.1 p.2.missions = none := by
      intro q hq p hp
      rw [hnil p hp]
      rfl
    rw [keySum_attach ms (collate inv ms rare) hnd hfresh k]
    calc keySum (collate inv ms rare) k
        = keySum [] k + rawTotal inv k := keySum_collate ms rare inv [] htag k
      _ = rawTotal inv k := by
          rw [show keySum [] k = 0 from rfl]
          omega
  · exact List.perm_insertionSort _ _

/-- C1 witness: a concrete untagged snapshot with a stolen sub-count and a
one-mission ledger; the Gold key's units are conserved. -/
theorem C1_witness :
    (∀ i ∈ [(⟨"Gold", some "Gold", 12, 2, none⟩ : CargoItem)],
        i.MissionID = none) ∧
    keySum (attach (collate [⟨"Gold", some "Gold", 12, 2, none⟩]
        [(1, ⟨"gold", "Gold", 10, 10, false, false⟩)] [])
        [(1, ⟨"gold", "Gold", 10, 10, false, false⟩)]) "gold" =
      rawTotal [⟨"Gold", some "Gold", 12, 2, none⟩] "gold" :=
  ⟨by decide,
   (C1_conservation [⟨"Gold", some "Gold", 12, 2, none⟩]
     [(1, ⟨"gold", "Gold", 10, 10, false, false⟩)] []
     (by decide) (by decide)).1 "gold"⟩

end EDMCCargo
